import Mathlib

/-!
# Verification of the doctor-solutions XML-to-spreadsheet converter

Shallow embedding of `src/components/xmlToXls.tsx` (both source variants:
the monthly-grouping variant and the earlier ungrouped variant share their
sanitizer and extraction logic verbatim; they differ only in how an
extraction failure is surfaced and in the grouping step, which only the
monthly variant has).

External platform facilities used by the source (JavaScript `String.replace`
with the literal regex `<(\/?)\w+\$`, `String.split`, `Number`, the `Date`
constructor with its calendar normalization, and the DOM `Element` interface
with `getElementsByTagName` / `textContent`) are modelled explicitly below,
on the fragment of their behaviour the source exercises.
-/

namespace DoctorSolutions

/-- The `Surgery` record interface from the source.  All seven fields are
declared `string` there; field names are transliterated to ASCII:
`dataRealizacao` = "Data Realização", `avisoCirurgia` = "Aviso Cirurgia",
`cirurgia` = "Cirurgia", `codigoPaciente` = "Código Paciente",
`nomePaciente` = "Nome Paciente", `anestesista` = "Anestesista",
`tipoAnestesia` = "Tipo Anestesia". -/
structure Surgery where
  dataRealizacao : String
  avisoCirurgia : String
  cirurgia : String
  codigoPaciente : String
  nomePaciente : String
  anestesista : String
  tipoAnestesia : String
deriving Repr, DecidableEq

/-! ## Sanitizer (`sanitizeXML`)

The source is:
```
if (xmlString.charCodeAt(0) === 0xfeff) { xmlString = xmlString.slice(1); }
return xmlString.replace(/<(\/?)\w+\$/g, "<$1");
```
The regex matches a literal `<`, an optional `/` (captured as group 1), a
nonempty run of word characters `\w = [A-Za-z0-9_]`, and a literal `$`;
each match is replaced by `<` followed by the captured optional `/` — i.e.
the word run and the `$` are deleted.  The global replace scans left to
right and resumes after the end of each match. -/

/-- JavaScript `\w`: ASCII letters, digits and underscore. -/
def isWordChar (c : Char) : Bool :=
  c.isAlpha || c.isDigit || c = '_'

/-- Match `\w+\$` at the head of `l`; on success return the remainder of the
input after the `$`. -/
def matchRun (l : List Char) : Option (List Char) :=
  if (l.takeWhile isWordChar).isEmpty then none
  else
    match l.dropWhile isWordChar with
    | '$' :: rem => some rem
    | _ => none

/-- Match `(\/?)\w+\$` at the head of `l` (the part of the regex after the
leading `<`); on success return whether the optional `/` was present,
together with the remainder of the input after the `$`. -/
def matchTag (l : List Char) : Option (Bool × List Char) :=
  match l with
  | '/' :: r => (matchRun r).map (fun rem => (true, rem))
  | r => (matchRun r).map (fun rem => (false, rem))

/-- One global left-to-right pass of
`replace(/<(\/?)\w+\$/g, "<$1")` over the character list: find the leftmost
match, emit `<` plus the captured optional `/`, and resume scanning right
after the matched `$`.  Recursion is driven by a fuel argument so the
function is structurally recursive; a fuel equal to the input length can
never run out, since each step consumes at least one input character
(`matchTag_length` below). -/
def sanitizeTagsFuel : Nat → List Char → List Char
  | 0, l => l
  | _ + 1, [] => []
  | fuel + 1, c :: rest =>
    if c = '<' then
      match matchTag rest with
      | some (slash, rem) =>
          if slash then '<' :: '/' :: sanitizeTagsFuel fuel rem
          else '<' :: sanitizeTagsFuel fuel rem
      | none => '<' :: sanitizeTagsFuel fuel rest
    else c :: sanitizeTagsFuel fuel rest

/-- The global regex replacement over a character list. -/
def sanitizeTags (l : List Char) : List Char :=
  sanitizeTagsFuel l.length l

/-- The byte-order-mark code point `0xFEFF`. -/
def bomChar : Char := Char.ofNat 0xFEFF

/-- `sanitizeXML` from the source: strip one leading BOM code point if
present (`charCodeAt(0) === 0xfeff`), then perform the global regex
replacement. -/
def sanitizeXML (xmlString : String) : String :=
  let l := if xmlString.data.head? = some bomChar then xmlString.data.tail else xmlString.data
  String.mk (sanitizeTags l)

/-! ## Date parsing and month grouping

The source is:
```
const parseBrazilianDate = (dateString) => {
  const [day, month, year] = dateString.split("/").map(Number);
  return new Date(2000 + year, month - 1, day);
};
```
and the grouping step computes
`` `${date.getFullYear()}-${(date.getMonth() + 1).toString().padStart(2, "0")}` ``.
`Number`, `split` and the `Date` constructor are JavaScript builtins and
are modelled below on the fragment the source exercises: `Number` on
(whitespace-trimmed) optionally signed decimal integer strings, with every
other input mapped to `NaN` (`none`); `new Date(y, m, d)` normalizes an
out-of-range month index into the year and an out-of-range day of month
into adjacent months, yields an invalid date (`none`) when an argument is
`NaN`, and maps a year argument in `0..99` to `1900 + year`. -/

/-- Prepend a character onto the first segment of a split result. -/
def consHead (c : Char) : List (List Char) → List (List Char)
  | r :: rs => (c :: r) :: rs
  | [] => [[c]]

/-- JavaScript `String.prototype.split` with separator `"/"`. -/
def splitOnSlash : List Char → List (List Char)
  | [] => [[]]
  | c :: rest =>
    if c = '/' then [] :: splitOnSlash rest
    else consHead c (splitOnSlash rest)

/-- Whitespace stripped by JavaScript `Number` before parsing (the ASCII
fragment). -/
def isJsSpace (c : Char) : Bool :=
  c = ' ' || c = '\t' || c = '\n' || c = '\r'

/-- Numeric value of a digit run. -/
def digitsVal (l : List Char) : Nat :=
  l.foldl (fun acc c => acc * 10 + (c.toNat - 48)) 0

/-- JavaScript `Number` on a string, modelled on the integer fragment:
the trimmed empty string is `0`, an optionally signed nonempty decimal
digit run is its value, and anything else is `NaN` (`none`). -/
def jsNumber (l : List Char) : Option Int :=
  let t := (((l.dropWhile isJsSpace).reverse.dropWhile isJsSpace).reverse : List Char)
  if t.isEmpty then some 0
  else if t.all Char.isDigit then some (digitsVal t)
  else
    match t with
    | '-' :: rest =>
        if rest.isEmpty then none
        else if rest.all Char.isDigit then some (-(digitsVal rest : Int)) else none
    | '+' :: rest =>
        if rest.isEmpty then none
        else if rest.all Char.isDigit then some (digitsVal rest) else none
    | _ => none

/-- Gregorian leap year, as used by the JavaScript `Date` calendar. -/
def isLeapYear (y : Int) : Bool :=
  (y % 4 = 0 && y % 100 ≠ 0) || y % 400 = 0

/-- Number of days of month `m` (0-based, `0..11`) of year `y`. -/
def daysInMonth (y : Int) (m : Nat) : Int :=
  if m = 1 then (if isLeapYear y then 29 else 28)
  else if m = 3 ∨ m = 5 ∨ m = 8 ∨ m = 10 then 30
  else 31

/-- Roll an out-of-range day-of-month `d` (1-based, as an integer) into the
adjacent months, starting from year `y` and 0-based month `m`, and return
the year and 0-based month of the resulting calendar date.  This is the
day-overflow normalization performed by the JavaScript `Date` constructor.
Fuel-driven; one unit of fuel is spent per month stepped over, so any fuel
of at least `d.natAbs + 2` suffices. -/
def normDate : Nat → Int → Nat → Int → Int × Nat
  | 0, y, m, _ => (y, m)
  | fuel + 1, y, m, d =>
    if d < 1 then
      let y' := if m = 0 then y - 1 else y
      let m' := if m = 0 then 11 else m - 1
      normDate fuel y' m' (d + daysInMonth y' m')
    else if daysInMonth y m < d then
      normDate fuel (if m = 11 then y + 1 else y) (if m = 11 then 0 else m + 1)
        (d - daysInMonth y m)
    else (y, m)

/-- `new Date(year, monthIndex, day)`: `none` when an argument is `NaN`;
otherwise the year is adjusted by the legacy `0..99 ↦ 1900..1999` rule, the
month index is normalized into the year (floored division by 12), and the
day is rolled into adjacent months.  Only the fields the source reads
(`getFullYear`, `getMonth`) are retained: the result is
`(full year, 0-based month)`. -/
def jsMakeDate (year monthIndex day : Option Int) : Option (Int × Nat) :=
  match year, monthIndex, day with
  | some y, some m, some d =>
    let yr := if 0 ≤ y ∧ y ≤ 99 then 1900 + y else y
    let ym := yr + m.fdiv 12
    let mn := (m.emod 12).toNat
    some (normDate (d.natAbs + 2) ym mn d)
  | _, _, _ => none

/-- `parseBrazilianDate` from the source: split on `/`, convert the first
three segments with `Number` (a missing segment is `undefined`, which turns
into `NaN` in the arithmetic), and build `new Date(2000 + year, month - 1,
day)`. -/
def parseBrazilianDate (dateString : String) : Option (Int × Nat) :=
  let parts := (splitOnSlash dateString.data).map jsNumber
  jsMakeDate
    (((parts.get? 2).join).map (fun year => 2000 + year))
    (((parts.get? 1).join).map (fun month => month - 1))
    ((parts.get? 0).join)

/-- JavaScript `String.prototype.padStart(2, "0")`. -/
def padStart2 (s : String) : String :=
  if s.length < 2 then String.mk (List.replicate (2 - s.length) '0') ++ s else s

/-- The month key template literal
`` `${date.getFullYear()}-${(date.getMonth() + 1).toString().padStart(2, "0")}` ``.
On an invalid date both `getFullYear()` and `getMonth() + 1` are `NaN`,
which stringifies to `"NaN"`. -/
def jsMonthKey : Option (Int × Nat) → String
  | none => "NaN-NaN"
  | some (y, m) => toString y ++ "-" ++ padStart2 (toString (m + 1))

/-- The key under which `groupSurgeriesByMonth` files a record. -/
def surgeryMonthKey (surgery : Surgery) : String :=
  jsMonthKey (parseBrazilianDate surgery.dataRealizacao)

/-- One step of the `reduce` accumulator update in `groupSurgeriesByMonth`:
`if (!acc[monthKey]) acc[monthKey] = []; acc[monthKey].push(surgery)`.
The accumulator object is modelled as an association list in property
insertion order (the iteration order of JavaScript objects with
non-index string keys such as `"2024-03"`). -/
def insertRecord (acc : List (String × List Surgery)) (key : String)
    (surgery : Surgery) : List (String × List Surgery) :=
  match acc with
  | [] => [(key, [surgery])]
  | (k, bucket) :: rest =>
    if k = key then (k, bucket ++ [surgery]) :: rest
    else (k, bucket) :: insertRecord rest key surgery

/-- `groupSurgeriesByMonth` from the source. -/
def groupSurgeriesByMonth (surgeries : List Surgery) :
    List (String × List Surgery) :=
  surgeries.foldl (fun acc surgery =>
    insertRecord acc (surgeryMonthKey surgery) surgery) []

/-- Invariant tying a grouping accumulator to the records already folded:
keys are distinct, every bucket is exactly the ordered subsequence of
already-processed records with that key, and every processed record's key
is present. -/
def groupInv (processed : List Surgery) (acc : List (String × List Surgery)) :
    Prop :=
  (acc.map Prod.fst).Nodup
  ∧ (∀ p ∈ acc, p.2 = processed.filter (fun s => surgeryMonthKey s = p.1))
  ∧ (∀ s ∈ processed, surgeryMonthKey s ∈ acc.map Prod.fst)

/-! ## Document tree and extraction (`processElement` / `parseXML`)

The parsed document is modelled as a generic node: tag name, list of child
elements, and the node's own directly contained text.  DOM
`getElementsByTagName` returns the element's proper descendants with the
given tag, in document (pre-order) time; `textContent` concatenates all
text contained in the subtree. -/

/-- A parsed document element. -/
inductive Element where
  | mk (tagName : String) (children : List Element) (ownText : String)
deriving Repr

def Element.tagName : Element → String
  | .mk tag _ _ => tag

def Element.children : Element → List Element
  | .mk _ cs _ => cs

mutual

/-- Proper descendants of an element, in document order. -/
def descendants : Element → List Element
  | .mk _ cs _ => descList cs

def descList : List Element → List Element
  | [] => []
  | c :: cs => c :: descendants c ++ descList cs

end

mutual

/-- DOM `textContent` of an element. -/
def textContent : Element → String
  | .mk _ cs t => t ++ textList cs

def textList : List Element → String
  | [] => ""
  | c :: cs => textContent c ++ textList cs

end

/-- DOM `getElementsByTagName`: all proper descendants with the given tag
name, in document order. -/
def getElementsByTagName (e : Element) (tag : String) : List Element :=
  (descendants e).filter (fun d => d.tagName = tag)

/-- The `element.getElementsByTagName(tag)[0]?.textContent` idiom:
`none` models the `undefined` produced when no descendant has the tag. -/
def firstText (e : Element) (tag : String) : Option String :=
  (getElementsByTagName e tag).head?.map textContent

/-- The record object pushed by `processElement` for one surgery group,
given the enclosing date value, the patient group element and the surgery
group element.  Each leaf lookup defaults to the empty string
(`?.textContent || ""`). -/
def mkRecord (date : String) (patientElement surgeryElement : Element) :
    Surgery where
  dataRealizacao := date
  avisoCirurgia := (firstText patientElement "CD_AVISO_CIRURGIA").getD ""
  cirurgia := (firstText surgeryElement "DECODE_NVL_CIR_AVI_DS_NPADRONI").getD ""
  codigoPaciente := (firstText patientElement "CD_PACIENTE").getD ""
  nomePaciente := (firstText patientElement "NM_PACIENTE").getD ""
  anestesista := (firstText surgeryElement "CF_NM_ANESTESISTA").getD ""
  tipoAnestesia := (firstText surgeryElement "DS_TIP_ANEST").getD ""

/-- The inner loop over `G_CIRURGIA` descendants of one surgery-list
element: a surgery group whose `DS_TIP_ANEST` value is exactly `"LOCAL"`
is skipped (strict `!==` comparison, so an absent leaf — `undefined` —
does not match `"LOCAL"`). -/
def surgeriesOf (date : String) (patientElement surgeryListElement : Element) :
    List Surgery :=
  (getElementsByTagName surgeryListElement "G_CIRURGIA").filterMap
    (fun surgeryElement =>
      if firstText surgeryElement "DS_TIP_ANEST" ≠ some "LOCAL" then
        some (mkRecord date patientElement surgeryElement)
      else none)

/-- The error thrown when `patientElement.getElementsByTagName
("LIST_G_CIRURGIA")[0]` is `undefined` and `.getElementsByTagName` is then
invoked on it. -/
def missingListError : String :=
  "TypeError: surgeryElement is undefined"

/-- The loop over the `G_NM_PACIENTE` descendants of a matched date group:
for each patient element, take the first `LIST_G_CIRURGIA` descendant
(throwing if there is none) and collect its surgery records.  Returns the
records accumulated before any thrown error, together with the error. -/
def processPatients (date : String) :
    List Element → List Surgery × Option String
  | [] => ([], none)
  | patientElement :: rest =>
    match (getElementsByTagName patientElement "LIST_G_CIRURGIA").head? with
    | none => ([], some missingListError)
    | some surgeryListElement =>
      let recs := surgeriesOf date patientElement surgeryListElement
      let tailResult := processPatients date rest
      (recs ++ tailResult.1, tailResult.2)

mutual

/-- `processElement` from the source, with the records pushed onto the
`surgeries` array made explicit: the first component is the list of records
pushed before any thrown error (in push order), the second the thrown
error, if any.  A matched `G_DT_REALIZACAO` element is processed first
(reading its date leaf and scanning all its `G_NM_PACIENTE` descendants),
then traversal recurses into the element's children. -/
def processElementAcc (e : Element) : List Surgery × Option String :=
  match e with
  | .mk tag cs own =>
    let step :=
      if tag = "G_DT_REALIZACAO" then
        processPatients
          ((firstText (Element.mk tag cs own) "DT_REALIZACAO").getD "")
          (getElementsByTagName (Element.mk tag cs own) "G_NM_PACIENTE")
      else ([], none)
    match step.2 with
    | some m => (step.1, some m)
    | none =>
      let rest := processChildren cs
      (step.1 ++ rest.1, rest.2)

/-- The `for` loop over `element.children`, stopped by a thrown error. -/
def processChildren : List Element → List Surgery × Option String
  | [] => ([], none)
  | c :: cs =>
    let r := processElementAcc c
    match r.2 with
    | some m => (r.1, some m)
    | none =>
      let rs := processChildren cs
      (r.1 ++ rs.1, rs.2)

end

/-- `parseXML` of the monthly-grouping variant, from the parsed tree on:
a thrown processing error is caught, wrapped and re-thrown, so the caller
gets either the full record list or an error — never a partial list. -/
def parseXMLMonthly (documentElement : Element) : Except String (List Surgery) :=
  match processElementAcc documentElement with
  | (_, some m) => .error ("Erro durante o processamento do XML: " ++ m)
  | (recs, none) => .ok recs

/-- `parseXML` of the ungrouped variant, from the parsed tree on: a thrown
processing error is caught and recorded into the UI error state, and the
records accumulated so far are returned regardless. -/
def parseXMLUngrouped (documentElement : Element) :
    List Surgery × Option String :=
  processElementAcc documentElement

/-! ## Characterizations used by the theorems -/

/-- Every extracted record is the record built by `mkRecord` from a date
value, a patient element and a surgery element whose anesthesia leaf is
not the literal `"LOCAL"`. -/
def ExtractedShape (r : Surgery) : Prop :=
  ∃ date patientElement surgeryElement,
    firstText surgeryElement "DS_TIP_ANEST" ≠ some "LOCAL" ∧
    r = mkRecord date patientElement surgeryElement

/-- The document contains (at any depth) a `G_DT_REALIZACAO` group with a
`G_NM_PACIENTE` descendant that has no `LIST_G_CIRURGIA` descendant — the
malformed-export shape the spec calls a structural mismatch. -/
def hasMissingList (root : Element) : Prop :=
  ∃ g ∈ root :: descendants root, g.tagName = "G_DT_REALIZACAO" ∧
    ∃ p ∈ getElementsByTagName g "G_NM_PACIENTE",
      getElementsByTagName p "LIST_G_CIRURGIA" = []

/-! ## Concrete sample documents and records -/

/-- A leaf field element. -/
def leafEl (tag text : String) : Element := .mk tag [] text

/-- A surgery group with anesthesia type `"GERAL"`. -/
def surgeryGeral : Element :=
  .mk "G_CIRURGIA"
    [leafEl "DS_TIP_ANEST" "GERAL",
     leafEl "DECODE_NVL_CIR_AVI_DS_NPADRONI" "APPENDECTOMY",
     leafEl "CF_NM_ANESTESISTA" "DR SILVA"] ""

/-- A surgery group with anesthesia type `"LOCAL"`. -/
def surgeryLocal : Element :=
  .mk "G_CIRURGIA" [leafEl "DS_TIP_ANEST" "LOCAL"] ""

/-- A surgery group with no `DS_TIP_ANEST` leaf at all. -/
def surgeryNoAnest : Element :=
  .mk "G_CIRURGIA" [leafEl "DECODE_NVL_CIR_AVI_DS_NPADRONI" "HERNIA REPAIR"] ""

/-- A well-formed patient group holding `surgeryGeral` and `surgeryLocal`. -/
def patientFull : Element :=
  .mk "G_NM_PACIENTE"
    [leafEl "CD_AVISO_CIRURGIA" "42",
     leafEl "CD_PACIENTE" "7",
     leafEl "NM_PACIENTE" "MARIA",
     .mk "LIST_G_CIRURGIA" [surgeryGeral, surgeryLocal] ""] ""

/-- A patient group with no `LIST_G_CIRURGIA` group at all. -/
def patientNoList : Element :=
  .mk "G_NM_PACIENTE" [leafEl "CD_PACIENTE" "9"] ""

/-- A date group holding one well-formed patient and one patient lacking
the surgery-list group. -/
def dateGroupMixed : Element :=
  .mk "G_DT_REALIZACAO" [leafEl "DT_REALIZACAO" "15/03/24", patientFull, patientNoList] ""

/-- A document whose single date group contains a malformed patient after a
well-formed one. -/
def docMixed : Element := .mk "ROOT" [dateGroupMixed] ""

/-- The record extracted from `patientFull`'s `surgeryGeral` before the
malformed patient is reached. -/
def recGeral : Surgery where
  dataRealizacao := "15/03/24"
  avisoCirurgia := "42"
  cirurgia := "APPENDECTOMY"
  codigoPaciente := "7"
  nomePaciente := "MARIA"
  anestesista := "DR SILVA"
  tipoAnestesia := "GERAL"

/-- A record dated with an invalid month (`13`). -/
def recBadMonth : Surgery where
  dataRealizacao := "31/13/24"
  avisoCirurgia := "42"
  cirurgia := "APPENDECTOMY"
  codigoPaciente := "7"
  nomePaciente := "MARIA"
  anestesista := "DR SILVA"
  tipoAnestesia := "GERAL"

/-- A record genuinely dated January 2025. -/
def recJan25 : Surgery where
  dataRealizacao := "15/01/25"
  avisoCirurgia := "51"
  cirurgia := "CHOLECYSTECTOMY"
  codigoPaciente := "8"
  nomePaciente := "JOSE"
  anestesista := "DR LIMA"
  tipoAnestesia := "GERAL"

/-- A record with a non-numeric date field. -/
def recBadText : Surgery where
  dataRealizacao := "not a date"
  avisoCirurgia := "42"
  cirurgia := "APPENDECTOMY"
  codigoPaciente := "7"
  nomePaciente := "MARIA"
  anestesista := "DR SILVA"
  tipoAnestesia := "GERAL"

/-- A surgery-list group holding only the anesthesia-less surgery. -/
def surgeryListSparse : Element :=
  .mk "LIST_G_CIRURGIA" [surgeryNoAnest] ""

/-- A patient group with none of its leaf fields, only the surgery list. -/
def patientSparse : Element :=
  .mk "G_NM_PACIENTE" [surgeryListSparse] ""

/-- A document whose surgery and patient groups are missing most leaf
fields (including the anesthesia type). -/
def docSparse : Element :=
  .mk "ROOT"
    [.mk "G_DT_REALIZACAO" [leafEl "DT_REALIZACAO" "15/03/24", patientSparse] ""] ""

/-- The record extracted from `docSparse`: every absent leaf is the empty
string. -/
def recSparse : Surgery where
  dataRealizacao := "15/03/24"
  avisoCirurgia := ""
  cirurgia := "HERNIA REPAIR"
  codigoPaciente := ""
  nomePaciente := ""
  anestesista := ""
  tipoAnestesia := ""

/-- A patient group used inside the nested-date-group document. -/
def patientNested : Element :=
  .mk "G_NM_PACIENTE"
    [leafEl "CD_AVISO_CIRURGIA" "77",
     leafEl "CD_PACIENTE" "5",
     leafEl "NM_PACIENTE" "ANA",
     .mk "LIST_G_CIRURGIA" [surgeryGeral] ""] ""

/-- A date group nested inside another date group. -/
def innerDateGroup : Element :=
  .mk "G_DT_REALIZACAO" [leafEl "DT_REALIZACAO" "02/01/24", patientNested] ""

/-- The outer date group: its own date leaf comes first, then the whole
inner date group is nested beneath it. -/
def outerDateGroup : Element :=
  .mk "G_DT_REALIZACAO" [leafEl "DT_REALIZACAO" "01/01/24", innerDateGroup] ""

/-- A well-formed document with one date group nested inside another. -/
def docNested : Element := .mk "ROOT" [outerDateGroup] ""

/-- The record extracted from `patientNested`'s surgery, parameterized by
the date it is emitted under. -/
def recNested (date : String) : Surgery where
  dataRealizacao := date
  avisoCirurgia := "77"
  cirurgia := "APPENDECTOMY"
  codigoPaciente := "5"
  nomePaciente := "ANA"
  anestesista := "DR SILVA"
  tipoAnestesia := "GERAL"

/-! ## Sanitizer lemmas -/

theorem matchRun_length {l rem : List Char} (h : matchRun l = some rem) :
    rem.length < l.length := by
  have hlen : (l.takeWhile isWordChar).length + (l.dropWhile isWordChar).length
      = l.length := by
    rw [← List.length_append, List.takeWhile_append_dropWhile]
  unfold matchRun at h
  split at h
  · simp at h
  · rename_i hne
    split at h
    · rename_i rem' heq
      injection h with h
      subst h
      have hpos : 0 < (l.takeWhile isWordChar).length := by
        rcases ht : l.takeWhile isWordChar with _ | _
        · rw [ht] at hne; simp at hne
        · simp [ht]
      rw [heq] at hlen
      simp only [List.length_cons] at hlen
      omega
    · simp at h

theorem matchTag_length {l : List Char} {s : Bool} {rem : List Char}
    (h : matchTag l = some (s, rem)) : rem.length < l.length := by
  unfold matchTag at h
  split at h
  · rename_i r
    rw [Option.map_eq_some'] at h
    obtain ⟨rem', hrem', heq⟩ := h
    have hlt := matchRun_length hrem'
    cases heq
    simp only [List.length_cons]
    omega
  · rw [Option.map_eq_some'] at h
    obtain ⟨rem', hrem', heq⟩ := h
    have hlt := matchRun_length hrem'
    cases heq
    exact hlt

theorem matchRun_dollar {l rem : List Char} (h : matchRun l = some rem) :
    '$' ∈ l := by
  unfold matchRun at h
  split at h
  · simp at h
  · split at h
    · rename_i rem' heq
      exact (List.dropWhile_sublist isWordChar).mem (heq ▸ List.mem_cons_self '$' rem')
    · simp at h

theorem matchTag_dollar {l : List Char} {x : Bool × List Char}
    (h : matchTag l = some x) : '$' ∈ l := by
  unfold matchTag at h
  split at h
  · rw [Option.map_eq_some'] at h
    obtain ⟨rem', hrem', -⟩ := h
    exact List.mem_cons_of_mem _ (matchRun_dollar hrem')
  · rw [Option.map_eq_some'] at h
    obtain ⟨rem', hrem', -⟩ := h
    exact matchRun_dollar hrem'

/-- On a text with no `$` character the regex never matches, so the
substitution pass is the identity (regardless of the fuel). -/
theorem sanitizeTagsFuel_no_dollar :
    ∀ (fuel : Nat) (l : List Char), '$' ∉ l → sanitizeTagsFuel fuel l = l := by
  intro fuel
  induction fuel with
  | zero => intro l _; rfl
  | succ fuel ih =>
    intro l hl
    match l with
    | [] => rfl
    | c :: rest =>
      have hrest : '$' ∉ rest := fun hmem => hl (List.mem_cons_of_mem c hmem)
      by_cases hc : c = '<'
      · subst hc
        cases hm : matchTag rest with
        | some x => exact absurd (matchTag_dollar hm) hrest
        | none => simp [sanitizeTagsFuel, hm, ih rest hrest]
      · simp only [sanitizeTagsFuel, if_neg hc, ih rest hrest]

theorem sanitizeTags_no_dollar {l : List Char} (hl : '$' ∉ l) :
    sanitizeTags l = l :=
  sanitizeTagsFuel_no_dollar l.length l hl

/-- Claim C1: the claim (and the sanitizer's own code comment) says a
malformed tag name ending in `$` is replaced by the same tag name minus the
trailing `$`, so that a BOM followed by a `<ROOT$>...</ROOT$>` wrapper
sanitizes to `<ROOT>...</ROOT>`.  Evaluating the code at that input shows
the replacement string `"<$1"` keeps only the captured optional slash and
deletes the whole tag name: the result is `<>abc</>`, not
`<ROOT>abc</ROOT>`. -/
theorem sanitizeXML_deletes_tag_names :
    sanitizeXML (String.mk (bomChar :: "<ROOT$>abc</ROOT$>".data)) = "<>abc</>" := by
  decide

/-- Claim C6 counterexample: sanitization is not idempotent.  A text of two
byte-order-marks loses exactly one per application: the first application
yields a single BOM, the second strips it too. -/
theorem sanitizeXML_not_idempotent :
    sanitizeXML (sanitizeXML (String.mk [bomChar, bomChar]))
      ≠ sanitizeXML (String.mk [bomChar, bomChar]) := by decide

/-- Claim C6 (amended): sanitization is idempotent on every input that does
not begin with two byte-order-marks and contains no `$` character.  (In
general it is not idempotent: a second application strips a second leading
BOM, and adjacent malformed runs such as `<A$B$>` shrink again on the
second pass.) -/
theorem sanitizeXML_idempotent_of (s : String)
    (hbom : s.data.take 2 ≠ [bomChar, bomChar])
    (hdol : '$' ∉ s.data) :
    sanitizeXML (sanitizeXML s) = sanitizeXML s := by
  rcases hs : s.data with _ | ⟨c, rest⟩
  · have h1 : sanitizeXML s = String.mk [] := by
      simp [sanitizeXML, hs, sanitizeTags, sanitizeTagsFuel]
    rw [h1]
    simp [sanitizeXML, sanitizeTags, sanitizeTagsFuel]
  · by_cases hc : c = bomChar
    · subst hc
      have hrest : ¬ rest.head? = some bomChar := by
        intro hh
        rcases hr : rest with _ | ⟨d, rest'⟩
        · rw [hr] at hh; simp at hh
        · rw [hr] at hh
          simp only [List.head?_cons, Option.some.injEq] at hh
          exact hbom (by simp [hs, hr, hh])
      have hdrest : '$' ∉ rest := fun hm => hdol (hs ▸ List.mem_cons_of_mem _ hm)
      have h1 : sanitizeXML s = String.mk rest := by
        simp only [sanitizeXML, hs]
        rw [if_pos (by simp)]
        simp [sanitizeTags_no_dollar hdrest]
      rw [h1]
      simp only [sanitizeXML]
      rw [if_neg hrest]
      exact congrArg String.mk (sanitizeTags_no_dollar hdrest)
    · have hdall : '$' ∉ c :: rest := hs ▸ hdol
      have h1 : sanitizeXML s = String.mk (c :: rest) := by
        simp only [sanitizeXML, hs]
        rw [if_neg (by simp [hc])]
        exact congrArg String.mk (sanitizeTags_no_dollar hdall)
      rw [h1]
      simp only [sanitizeXML]
      rw [if_neg (by simp [hc])]
      exact congrArg String.mk (sanitizeTags_no_dollar hdall)

/-- Witness for `sanitizeXML_idempotent_of` at the concrete input `"ab"`. -/
theorem sanitizeXML_idempotent_witness :
    ("ab".data.take 2 ≠ [bomChar, bomChar] ∧ '$' ∉ "ab".data) ∧
      sanitizeXML (sanitizeXML "ab") = sanitizeXML "ab" :=
  ⟨⟨by decide, by decide⟩, sanitizeXML_idempotent_of "ab" (by decide) (by decide)⟩

/-! ## Grouping lemmas -/

theorem insertRecord_sizes (acc : List (String × List Surgery)) (key : String)
    (surgery : Surgery) :
    ((insertRecord acc key surgery).map (fun p => p.2.length)).sum
      = ((acc.map (fun p => p.2.length)).sum) + 1 := by
  induction acc with
  | nil => simp [insertRecord]
  | cons hd rest ih =>
    obtain ⟨k, bucket⟩ := hd
    by_cases hk : k = key
    · simp [insertRecord, hk]
      omega
    · simp [insertRecord, hk, ih]
      omega

theorem insertRecord_keys (acc : List (String × List Surgery)) (key : String)
    (surgery : Surgery) :
    (insertRecord acc key surgery).map Prod.fst
      = if key ∈ acc.map Prod.fst then acc.map Prod.fst
        else acc.map Prod.fst ++ [key] := by
  induction acc with
  | nil => simp [insertRecord]
  | cons hd rest ih =>
    obtain ⟨k, bucket⟩ := hd
    by_cases hk : k = key
    · simp [insertRecord, hk]
    · by_cases hmem : key ∈ rest.map Prod.fst
      · simp [insertRecord, hk, ih, hmem, Ne.symm hk]
      · simp [insertRecord, hk, ih, hmem, Ne.symm hk]

theorem mem_insertRecord {key : String} {surgery : Surgery}
    {p : String × List Surgery} :
    ∀ {acc : List (String × List Surgery)}, (acc.map Prod.fst).Nodup →
      p ∈ insertRecord acc key surgery →
      (p ∈ acc ∧ p.1 ≠ key)
      ∨ (∃ bucket, (key, bucket) ∈ acc ∧ p = (key, bucket ++ [surgery]))
      ∨ (key ∉ acc.map Prod.fst ∧ p = (key, [surgery])) := by
  intro acc
  induction acc with
  | nil =>
    intro _ hp
    simp only [insertRecord, List.mem_singleton] at hp
    exact Or.inr (Or.inr ⟨by simp, hp⟩)
  | cons hd rest ih =>
    intro hnd hp
    obtain ⟨k, bucket⟩ := hd
    simp only [List.map_cons, List.nodup_cons] at hnd
    obtain ⟨hknotin, hndrest⟩ := hnd
    by_cases hk : k = key
    · simp only [insertRecord, if_pos hk, List.mem_cons] at hp
      subst hk
      rcases hp with hp | hp
      · exact Or.inr (Or.inl ⟨bucket, List.mem_cons_self _ _, hp⟩)
      · left
        refine ⟨List.mem_cons_of_mem _ hp, ?_⟩
        intro hfst
        exact hknotin (hfst ▸ List.mem_map_of_mem Prod.fst hp)
    · simp only [insertRecord, if_neg hk, List.mem_cons] at hp
      rcases hp with hp | hp
      · exact Or.inl ⟨by simp [hp], by simp [hp, hk]⟩
      · rcases ih hndrest hp with h | ⟨b, hb, hpb⟩ | ⟨hnot, hpb⟩
        · exact Or.inl ⟨List.mem_cons_of_mem _ h.1, h.2⟩
        · exact Or.inr (Or.inl ⟨b, List.mem_cons_of_mem _ hb, hpb⟩)
        · refine Or.inr (Or.inr ⟨?_, hpb⟩)
          simp only [List.map_cons, List.mem_cons]
          rintro (h | h)
          · exact hk h.symm
          · exact hnot h

theorem groupInv_insert {processed : List Surgery}
    {acc : List (String × List Surgery)} (surgery : Surgery)
    (hinv : groupInv processed acc) :
    groupInv (processed ++ [surgery])
      (insertRecord acc (surgeryMonthKey surgery) surgery) := by
  obtain ⟨hnd, hbuckets, hkeys⟩ := hinv
  refine ⟨?_, ?_, ?_⟩
  · rw [insertRecord_keys]
    split
    · exact hnd
    · rename_i hnot
      simp [List.nodup_append, hnd, hnot]
  · intro p hp
    rcases mem_insertRecord hnd hp with ⟨hmem, hne⟩ | ⟨b, hb, hpb⟩ | ⟨hnot, hpb⟩
    · rw [hbuckets p hmem, List.filter_append]
      simp [Ne.symm hne]
    · subst hpb
      have hb2 : b = processed.filter
          (fun s => surgeryMonthKey s = surgeryMonthKey surgery) := by
        simpa using hbuckets (surgeryMonthKey surgery, b) hb
      simp only [List.filter_append, ← hb2]
      simp
    · subst hpb
      have hempty : processed.filter
          (fun s => surgeryMonthKey s = surgeryMonthKey surgery) = [] := by
        rw [List.filter_eq_nil_iff]
        intro s hs hkey
        simp only [decide_eq_true_eq] at hkey
        exact hnot (hkey ▸ hkeys s hs)
      simp only [List.filter_append, hempty]
      simp
  · intro s hs
    rw [insertRecord_keys]
    rcases List.mem_append.mp hs with hs | hs
    · have := hkeys s hs
      split <;> simp [this]
    · simp only [List.mem_singleton] at hs
      subst hs
      split
      · assumption
      · simp

theorem groupInv_groupSurgeriesByMonth (surgeries : List Surgery) :
    groupInv surgeries (groupSurgeriesByMonth surgeries) := by
  induction surgeries using List.reverseRecOn with
  | nil =>
    exact ⟨by simp [groupSurgeriesByMonth], by simp [groupSurgeriesByMonth],
      by simp [groupSurgeriesByMonth]⟩
  | append_singleton l s ih =>
    have hstep : groupSurgeriesByMonth (l ++ [s])
        = insertRecord (groupSurgeriesByMonth l) (surgeryMonthKey s) s := by
      simp [groupSurgeriesByMonth, List.foldl_append]
    rw [hstep]
    exact groupInv_insert s ih

/-- Claim C7: grouping loses no record and is stable.  The sum of the
bucket sizes equals the input length, and every bucket in the grouping is
exactly the ordered subsequence of input records whose month key is the
bucket's key (so records keep their original relative order).  The
grouping step of the source is total — there is no failure case — so no
success hypothesis is needed. -/
theorem grouping_preserves_records (surgeries : List Surgery) :
    ((groupSurgeriesByMonth surgeries).map (fun p => p.2.length)).sum
        = surgeries.length
    ∧ ∀ key bucket, (key, bucket) ∈ groupSurgeriesByMonth surgeries →
        bucket = surgeries.filter (fun s => surgeryMonthKey s = key) := by
  constructor
  · have haux : ∀ (l : List Surgery) (acc : List (String × List Surgery)),
        (((l.foldl (fun acc surgery =>
            insertRecord acc (surgeryMonthKey surgery) surgery) acc).map
          (fun p => p.2.length)).sum)
          = ((acc.map (fun p => p.2.length)).sum) + l.length := by
      intro l
      induction l with
      | nil => intro acc; simp
      | cons hd tl ih =>
        intro acc
        simp only [List.foldl_cons, ih, insertRecord_sizes, List.length_cons]
        omega
    simpa [groupSurgeriesByMonth] using haux surgeries []
  · intro key bucket hmem
    exact (groupInv_groupSurgeriesByMonth surgeries).2.1 (key, bucket) hmem

/-- Witness for `grouping_preserves_records`: two records dated March 2024
and January 2025; the March bucket holds exactly the filtered subsequence. -/
theorem grouping_preserves_witness :
    (("2024-03", [recGeral]) ∈ groupSurgeriesByMonth [recGeral, recJan25])
    ∧ [recGeral] = [recGeral, recJan25].filter
        (fun s => surgeryMonthKey s = "2024-03") :=
  ⟨by decide, (grouping_preserves_records [recGeral, recJan25]).2
    "2024-03" [recGeral] (by decide)⟩

/-- Claim C2 counterexample: a record dated `"31/13/24"` (month 13) does
not make grouping fail: the grouping operation returns normally and files
the record under `"2025-01"` — the `Date` constructor rolls month 13 of
2024 over into January 2025.  The source has no date-validation path at
all: `groupSurgeriesByMonth` is total and no `DateParseError` exists. -/
theorem groupBadMonth_misfiled :
    groupSurgeriesByMonth [recBadMonth] = [("2025-01", [recBadMonth])] := by
  decide

/-- Claim C2 (amended): grouping never fails on malformed dates.
Out-of-range numeric components are normalized by calendar rollover — the
`"31/13/24"` record is filed together with genuine January-2025 records
under `"2025-01"` — and a non-numeric date yields `NaN` components, filing
the record under the literal key `"NaN-NaN"`. -/
theorem groupInvalidDates_never_fail :
    groupSurgeriesByMonth [recBadMonth, recJan25]
        = [("2025-01", [recBadMonth, recJan25])]
    ∧ groupSurgeriesByMonth [recBadText] = [("NaN-NaN", [recBadText])] :=
  ⟨by decide, by decide⟩

/-! ## Extraction lemmas -/

theorem mem_surgeriesOf {date : String}
    {patientElement surgeryListElement : Element} {r : Surgery}
    (h : r ∈ surgeriesOf date patientElement surgeryListElement) :
    ∃ surgeryElement ∈ getElementsByTagName surgeryListElement "G_CIRURGIA",
      firstText surgeryElement "DS_TIP_ANEST" ≠ some "LOCAL" ∧
      r = mkRecord date patientElement surgeryElement := by
  unfold surgeriesOf at h
  rw [List.mem_filterMap] at h
  obtain ⟨sur, hmem, hval⟩ := h
  by_cases hc : firstText sur "DS_TIP_ANEST" ≠ some "LOCAL"
  · rw [if_pos hc] at hval
    exact ⟨sur, hmem, hc, (Option.some.inj hval).symm⟩
  · rw [if_neg hc] at hval
    exact absurd hval (by simp)

theorem mem_processPatients {date : String} {r : Surgery} :
    ∀ {patients : List Element}, r ∈ (processPatients date patients).1 →
      ∃ p ∈ patients, ∃ sl,
        (getElementsByTagName p "LIST_G_CIRURGIA").head? = some sl ∧
        r ∈ surgeriesOf date p sl := by
  intro patients
  induction patients with
  | nil => intro h; simp [processPatients] at h
  | cons p rest ih =>
    intro h
    cases hl : (getElementsByTagName p "LIST_G_CIRURGIA").head? with
    | none => simp [processPatients, hl] at h
    | some sl =>
      simp only [processPatients, hl] at h
      rcases List.mem_append.mp h with h1 | h2
      · exact ⟨p, List.mem_cons_self _ _, sl, hl, h1⟩
      · obtain ⟨q, hq, sl', hsl', hr⟩ := ih h2
        exact ⟨q, List.mem_cons_of_mem _ hq, sl', hsl', hr⟩

theorem mem_processChildren {K : Surgery → Prop} :
    ∀ {cs : List Element},
      (∀ c ∈ cs, ∀ r ∈ (processElementAcc c).1, K r) →
      ∀ r ∈ (processChildren cs).1, K r := by
  intro cs
  induction cs with
  | nil => intro _ r hr; simp [processChildren] at hr
  | cons c rest ih =>
    intro hall r hr
    cases hm : (processElementAcc c).2 with
    | some m =>
      simp only [processChildren, hm] at hr
      exact hall c (List.mem_cons_self _ _) r hr
    | none =>
      simp only [processChildren, hm] at hr
      rcases List.mem_append.mp hr with h1 | h2
      · exact hall c (List.mem_cons_self _ _) r h1
      · exact ih (fun q hq => hall q (List.mem_cons_of_mem _ hq)) r h2

theorem extractedShape_of_mem_aux :
    ∀ (n : Nat) (e : Element), sizeOf e < n →
      ∀ r ∈ (processElementAcc e).1, ExtractedShape r := by
  intro n
  induction n with
  | zero => intro e he; omega
  | succ n ih =>
    intro e he r hr
    obtain ⟨tag, cs, own⟩ := e
    have hcs : ∀ c ∈ cs, ∀ q ∈ (processElementAcc c).1, ExtractedShape q := by
      intro c hc
      have h2 := List.sizeOf_lt_of_mem hc
      have h3 : sizeOf (Element.mk tag cs own)
          = 1 + sizeOf tag + sizeOf cs + sizeOf own := by
        simp [Element.mk.sizeOf_spec]
      exact ih c (by omega)
    by_cases ht : tag = "G_DT_REALIZACAO"
    · simp only [processElementAcc, if_pos ht] at hr
      cases hpp : (processPatients
          ((firstText (Element.mk tag cs own) "DT_REALIZACAO").getD "")
          (getElementsByTagName (Element.mk tag cs own) "G_NM_PACIENTE")).2 with
      | some m =>
        simp only [hpp] at hr
        obtain ⟨p, hp, sl, hsl, hrs⟩ := mem_processPatients hr
        obtain ⟨sur, hsur, hcond, heq⟩ := mem_surgeriesOf hrs
        exact ⟨_, p, sur, hcond, heq⟩
      | none =>
        simp only [hpp] at hr
        rcases List.mem_append.mp hr with h1 | h2
        · obtain ⟨p, hp, sl, hsl, hrs⟩ := mem_processPatients h1
          obtain ⟨sur, hsur, hcond, heq⟩ := mem_surgeriesOf hrs
          exact ⟨_, p, sur, hcond, heq⟩
        · exact mem_processChildren hcs r h2
    · simp only [processElementAcc, if_neg ht] at hr
      exact mem_processChildren hcs r (by simpa using hr)

theorem extractedShape_of_mem {e : Element} {r : Surgery}
    (h : r ∈ (processElementAcc e).1) : ExtractedShape r :=
  extractedShape_of_mem_aux (sizeOf e + 1) e (by omega) r h

/-- Both variants' result lists consist of records accumulated by
`processElementAcc`. -/
theorem mem_acc_of_result {documentElement : Element} {recs : List Surgery}
    (h : parseXMLMonthly documentElement = .ok recs
      ∨ recs = (parseXMLUngrouped documentElement).1) :
    ∀ r ∈ recs, r ∈ (processElementAcc documentElement).1 := by
  rcases h with h | h
  · unfold parseXMLMonthly at h
    split at h
    · exact absurd h (by simp)
    · rename_i recs' heq
      injection h with h
      subst h
      intro r hr
      rw [heq]
      exact hr
  · subst h
    exact fun r hr => hr

theorem processPatients_err (date : String) {badPatient : Element} :
    ∀ {patients : List Element}, badPatient ∈ patients →
      getElementsByTagName badPatient "LIST_G_CIRURGIA" = [] →
      (processPatients date patients).2.isSome := by
  intro patients
  induction patients with
  | nil => intro h; simp at h
  | cons p rest ih =>
    intro hmem hnil
    rcases List.mem_cons.mp hmem with heq | hmem'
    · subst heq
      simp [processPatients, hnil]
    · cases hl : (getElementsByTagName p "LIST_G_CIRURGIA").head? with
      | none => simp [processPatients, hl]
      | some sl =>
        simp only [processPatients, hl]
        exact ih hmem' hnil

theorem processChildren_err :
    ∀ {cs : List Element} {c : Element}, c ∈ cs →
      (processElementAcc c).2.isSome → (processChildren cs).2.isSome := by
  intro cs
  induction cs with
  | nil => intro c h; simp at h
  | cons c0 rest ih =>
    intro c hmem hsome
    cases hm : (processElementAcc c0).2 with
    | some m => simp [processChildren, hm]
    | none =>
      simp only [processChildren, hm]
      rcases List.mem_cons.mp hmem with heq | hmem'
      · subst heq
        rw [hm] at hsome
        simp at hsome
      · exact ih hmem' hsome

theorem mem_descList : ∀ {cs : List Element} {g : Element},
    g ∈ descList cs → ∃ c ∈ cs, g ∈ c :: descendants c := by
  intro cs
  induction cs with
  | nil => intro g h; simp [descList] at h
  | cons c rest ih =>
    intro g h
    simp only [descList, List.mem_cons, List.mem_append] at h
    rcases h with (h | h) | h
    · exact ⟨c, List.mem_cons_self _ _, by simp [h]⟩
    · exact ⟨c, List.mem_cons_self _ _, List.mem_cons_of_mem _ h⟩
    · obtain ⟨q, hq, hg⟩ := ih h
      exact ⟨q, List.mem_cons_of_mem _ hq, hg⟩

theorem err_of_missing_aux :
    ∀ (n : Nat) (e : Element), sizeOf e < n → hasMissingList e →
      (processElementAcc e).2.isSome := by
  intro n
  induction n with
  | zero => intro e he; omega
  | succ n ih =>
    intro e he hbad
    obtain ⟨tag, cs, own⟩ := e
    obtain ⟨g, hg, htag, p, hp, hnil⟩ := hbad
    rcases List.mem_cons.mp hg with heq | hgdesc
    · subst heq
      have ht : tag = "G_DT_REALIZACAO" := htag
      have hstep := processPatients_err
        ((firstText (Element.mk tag cs own) "DT_REALIZACAO").getD "")
        hp hnil
      simp only [processElementAcc, if_pos ht]
      cases hpp : (processPatients
          ((firstText (Element.mk tag cs own) "DT_REALIZACAO").getD "")
          (getElementsByTagName (Element.mk tag cs own) "G_NM_PACIENTE")).2 with
      | some m => simp [hpp]
      | none =>
        rw [hpp] at hstep
        simp at hstep
    · have hgd : g ∈ descList cs := by simpa [descendants] using hgdesc
      obtain ⟨c, hc, hgc⟩ := mem_descList hgd
      have hbadc : hasMissingList c := ⟨g, hgc, htag, p, hp, hnil⟩
      have h2 := List.sizeOf_lt_of_mem hc
      have h3 : sizeOf (Element.mk tag cs own)
          = 1 + sizeOf tag + sizeOf cs + sizeOf own := by
        simp [Element.mk.sizeOf_spec]
      have hcerr := ih c (by omega) hbadc
      have hch := processChildren_err hc hcerr
      by_cases ht : tag = "G_DT_REALIZACAO"
      · simp only [processElementAcc, if_pos ht]
        cases hpp : (processPatients
            ((firstText (Element.mk tag cs own) "DT_REALIZACAO").getD "")
            (getElementsByTagName (Element.mk tag cs own) "G_NM_PACIENTE")).2 with
        | some m => simp [hpp]
        | none => simpa [hpp] using hch
      · simp only [processElementAcc, if_neg ht]
        simpa using hch

/-- Claim C3 counterexample: in the ungrouped variant, a document
containing a patient group with no surgery-list group does not abort: the
error is caught inside `parseXML`, and the partial record list extracted
before the failure (here, one record) is returned — and subsequently
exported by the caller. -/
theorem ungrouped_returns_partial_list :
    parseXMLUngrouped docMixed = ([recGeral], some missingListError) := by
  rfl

/-- Claim C3 (amended): in the monthly-grouping variant, every document
containing (at any depth) a date group with a patient group that has no
`LIST_G_CIRURGIA` descendant makes extraction abort with an error — a
generic wrapped processing error, not a distinct `StructuralMismatchError`
type — and no record list is returned. -/
theorem missing_list_aborts_monthly (documentElement : Element)
    (h : hasMissingList documentElement) :
    ∃ m, parseXMLMonthly documentElement = .error m := by
  have herr := err_of_missing_aux (sizeOf documentElement + 1) documentElement
    (by omega) h
  unfold parseXMLMonthly
  cases hacc : processElementAcc documentElement with
  | mk recs err =>
    rw [hacc] at herr
    cases err with
    | some m => exact ⟨"Erro durante o processamento do XML: " ++ m, by simp⟩
    | none => simp at herr

/-- Witness for `missing_list_aborts_monthly` at `docMixed`. -/
theorem missing_list_aborts_witness :
    hasMissingList docMixed ∧ ∃ m, parseXMLMonthly docMixed = .error m :=
  let hbad : hasMissingList docMixed :=
    ⟨dateGroupMixed, List.Mem.tail _ (List.Mem.head _), rfl,
      patientNoList, List.Mem.tail _ (List.Mem.head _), rfl⟩
  ⟨hbad, missing_list_aborts_monthly docMixed hbad⟩

/-- Claim C4: no record surviving extraction — in either variant, and
including the partial list the ungrouped variant returns after a caught
error — has `"Tipo Anestesia"` equal to the literal `"LOCAL"`: a surgery
group whose anesthesia leaf reads `"LOCAL"` is skipped by the strict
`!==` guard before the record is pushed. -/
theorem extracted_never_local (documentElement : Element) (recs : List Surgery)
    (h : parseXMLMonthly documentElement = .ok recs
      ∨ recs = (parseXMLUngrouped documentElement).1) :
    ∀ r ∈ recs, r.tipoAnestesia ≠ "LOCAL" := by
  intro r hr
  obtain ⟨date, p, sur, hcond, heq⟩ :=
    extractedShape_of_mem (mem_acc_of_result h r hr)
  subst heq
  simp only [mkRecord]
  cases hft : firstText sur "DS_TIP_ANEST" with
  | none => simp
  | some v =>
    simp only [Option.getD_some]
    intro hv
    exact hcond (by rw [hft, hv])

/-- Witness for `extracted_never_local`: the full document `docSparse`
extracts to `[recSparse]` and that record's anesthesia field is not
`"LOCAL"`. -/
theorem extracted_never_local_witness :
    (parseXMLMonthly docSparse = .ok [recSparse]
      ∨ ([recSparse] : List Surgery) = (parseXMLUngrouped docSparse).1)
    ∧ recSparse.tipoAnestesia ≠ "LOCAL" :=
  ⟨Or.inl rfl,
    extracted_never_local docSparse [recSparse] (Or.inl rfl) recSparse
      (List.Mem.head _)⟩

/-- Claim C5: every extracted record — in either variant — is built by
`mkRecord`, whose seven fields are all `String`-typed (mirroring the
source's `Surgery` interface, where every field is declared `string`), and
each leaf-driven field defaults to the empty string whenever the
corresponding leaf is absent from the source tree. -/
theorem extracted_fields_defaulted (documentElement : Element)
    (recs : List Surgery)
    (h : parseXMLMonthly documentElement = .ok recs
      ∨ recs = (parseXMLUngrouped documentElement).1) :
    ∀ r ∈ recs, ∃ date patientElement surgeryElement,
      r = mkRecord date patientElement surgeryElement
      ∧ (firstText patientElement "CD_AVISO_CIRURGIA" = none →
          r.avisoCirurgia = "")
      ∧ (firstText surgeryElement "DECODE_NVL_CIR_AVI_DS_NPADRONI" = none →
          r.cirurgia = "")
      ∧ (firstText patientElement "CD_PACIENTE" = none →
          r.codigoPaciente = "")
      ∧ (firstText patientElement "NM_PACIENTE" = none →
          r.nomePaciente = "")
      ∧ (firstText surgeryElement "CF_NM_ANESTESISTA" = none →
          r.anestesista = "")
      ∧ (firstText surgeryElement "DS_TIP_ANEST" = none →
          r.tipoAnestesia = "") := by
  intro r hr
  obtain ⟨date, p, sur, hcond, heq⟩ :=
    extractedShape_of_mem (mem_acc_of_result h r hr)
  subst heq
  refine ⟨date, p, sur, rfl, ?_, ?_, ?_, ?_, ?_, ?_⟩ <;>
    (intro habs; simp [mkRecord, habs])

/-- Witness for `extracted_fields_defaulted` at `docSparse`: the extracted
record has empty strings exactly at the absent leaves. -/
theorem extracted_fields_defaulted_witness :
    (parseXMLMonthly docSparse = .ok [recSparse]
      ∨ ([recSparse] : List Surgery) = (parseXMLUngrouped docSparse).1)
    ∧ ∃ date patientElement surgeryElement,
      recSparse = mkRecord date patientElement surgeryElement
      ∧ (firstText patientElement "CD_AVISO_CIRURGIA" = none →
          recSparse.avisoCirurgia = "")
      ∧ (firstText surgeryElement "DECODE_NVL_CIR_AVI_DS_NPADRONI" = none →
          recSparse.cirurgia = "")
      ∧ (firstText patientElement "CD_PACIENTE" = none →
          recSparse.codigoPaciente = "")
      ∧ (firstText patientElement "NM_PACIENTE" = none →
          recSparse.nomePaciente = "")
      ∧ (firstText surgeryElement "CF_NM_ANESTESISTA" = none →
          recSparse.anestesista = "")
      ∧ (firstText surgeryElement "DS_TIP_ANEST" = none →
          recSparse.tipoAnestesia = "") :=
  ⟨Or.inl rfl,
    extracted_fields_defaulted docSparse [recSparse] (Or.inl rfl) recSparse
      (List.Mem.head _)⟩

/-- Claim C9: a surgery group with no `DS_TIP_ANEST` descendant at all is
not skipped: the lookup yields `undefined` (`none`), which is not strictly
equal to `"LOCAL"`, so a record is emitted, and its `"Tipo Anestesia"`
field is the empty string. -/
theorem absent_anesthesia_not_skipped (date : String)
    (patientElement surgeryListElement surgeryElement : Element)
    (hmem : surgeryElement ∈ getElementsByTagName surgeryListElement "G_CIRURGIA")
    (habs : firstText surgeryElement "DS_TIP_ANEST" = none) :
    mkRecord date patientElement surgeryElement
        ∈ surgeriesOf date patientElement surgeryListElement
    ∧ (mkRecord date patientElement surgeryElement).tipoAnestesia = "" := by
  constructor
  · unfold surgeriesOf
    rw [List.mem_filterMap]
    exact ⟨surgeryElement, hmem, by rw [if_pos (by simp [habs])]⟩
  · simp [mkRecord, habs]

/-- Witness for `absent_anesthesia_not_skipped` at the concrete
anesthesia-less surgery group of `docSparse`. -/
theorem absent_anesthesia_witness :
    (surgeryNoAnest ∈ getElementsByTagName surgeryListSparse "G_CIRURGIA"
      ∧ firstText surgeryNoAnest "DS_TIP_ANEST" = none)
    ∧ mkRecord "15/03/24" patientSparse surgeryNoAnest
        ∈ surgeriesOf "15/03/24" patientSparse surgeryListSparse
    ∧ (mkRecord "15/03/24" patientSparse surgeryNoAnest).tipoAnestesia = "" :=
  ⟨⟨List.Mem.head _, rfl⟩,
    absent_anesthesia_not_skipped "15/03/24" patientSparse surgeryListSparse
      surgeryNoAnest (List.Mem.head _) rfl⟩

/-! ## Month-key lemmas for valid dates -/

theorem splitOnSlash_no_slash : ∀ {l : List Char}, '/' ∉ l →
    splitOnSlash l = [l] := by
  intro l
  induction l with
  | nil => intro _; rfl
  | cons c rest ih =>
    intro h
    have hc : ¬ c = '/' := fun hc => h (hc ▸ List.mem_cons_self _ _)
    have hrest : '/' ∉ rest := fun hm => h (List.mem_cons_of_mem _ hm)
    show (if c = '/' then [] :: splitOnSlash rest else consHead c (splitOnSlash rest))
      = [c :: rest]
    rw [if_neg hc, ih hrest]
    rfl

theorem splitOnSlash_two : ∀ {b : List Char} {c : List Char}, '/' ∉ b →
    '/' ∉ c → splitOnSlash (b ++ '/' :: c) = [b, c] := by
  intro b
  induction b with
  | nil =>
    intro c _ hc
    show [] :: splitOnSlash c = [[], c]
    rw [splitOnSlash_no_slash hc]
  | cons x xs ih =>
    intro c hb hc
    have hx : ¬ x = '/' := fun h => hb (h ▸ List.mem_cons_self _ _)
    have hxs : '/' ∉ xs := fun hm => hb (List.mem_cons_of_mem _ hm)
    show (if x = '/' then [] :: splitOnSlash (xs ++ '/' :: c)
      else consHead x (splitOnSlash (xs ++ '/' :: c))) = [x :: xs, c]
    rw [if_neg hx, ih hxs hc]
    rfl

theorem splitOnSlash_three : ∀ {a b c : List Char}, '/' ∉ a → '/' ∉ b →
    '/' ∉ c → splitOnSlash (a ++ '/' :: (b ++ '/' :: c)) = [a, b, c] := by
  intro a
  induction a with
  | nil =>
    intro b c _ hb hc
    show [] :: splitOnSlash (b ++ '/' :: c) = [[], b, c]
    rw [splitOnSlash_two hb hc]
  | cons x xs ih =>
    intro b c ha hb hc
    have hx : ¬ x = '/' := fun h => ha (h ▸ List.mem_cons_self _ _)
    have hxs : '/' ∉ xs := fun hm => ha (List.mem_cons_of_mem _ hm)
    show (if x = '/' then [] :: splitOnSlash (xs ++ '/' :: (b ++ '/' :: c))
      else consHead x (splitOnSlash (xs ++ '/' :: (b ++ '/' :: c)))) = [x :: xs, b, c]
    rw [if_neg hx, ih hxs hb hc]
    rfl

/-- The two-digit zero-padded print of a number up to 99 contains no
slash. -/
theorem pad_no_slash : ∀ n : Nat, n ≤ 99 →
    '/' ∉ (padStart2 (toString n)).data := by decide

/-- JavaScript `Number` reads back the two-digit zero-padded print of any
number up to 99. -/
theorem jsNumber_pad : ∀ n : Nat, n ≤ 99 →
    jsNumber (padStart2 (toString n)).data = some (n : Int) := by decide

/-- Every month length is at most 31. -/
theorem daysInMonth_le (y : Int) (m : Nat) : daysInMonth y m ≤ 31 := by
  unfold daysInMonth
  split
  · split <;> omega
  · split <;> omega

/-- Claim C8: a record whose `realizationDate` prints a valid calendar
date `DD/MM/YY` (day within the month's length, month `1..12`, two-digit
year) is keyed under `${2000 + YY}-${MM}` with the month zero-padded to
two digits; no calendar rollover and no legacy `0..99` year adjustment
applies on this range. -/
theorem monthKey_of_valid_date (r : Surgery) (D M Y : Nat)
    (hM1 : 1 ≤ M) (hM2 : M ≤ 12) (hD1 : 1 ≤ D)
    (hD2 : (D : Int) ≤ daysInMonth (2000 + (Y : Int)) (M - 1))
    (hY : Y ≤ 99)
    (hdate : r.dataRealizacao
      = padStart2 (toString D) ++ "/" ++ padStart2 (toString M) ++ "/"
        ++ padStart2 (toString Y)) :
    surgeryMonthKey r
      = toString (2000 + (Y : Int)) ++ "-" ++ padStart2 (toString M) := by
  have hD99 : D ≤ 99 := by
    have h31 := daysInMonth_le (2000 + (Y : Int)) (M - 1)
    omega
  have hslash : ("/" : String).data = ['/'] := rfl
  have hsplit : splitOnSlash (padStart2 (toString D) ++ "/"
      ++ padStart2 (toString M) ++ "/" ++ padStart2 (toString Y)).data
      = [(padStart2 (toString D)).data, (padStart2 (toString M)).data,
         (padStart2 (toString Y)).data] := by
    have h1 : (padStart2 (toString D) ++ "/" ++ padStart2 (toString M) ++ "/"
        ++ padStart2 (toString Y)).data
        = (padStart2 (toString D)).data
          ++ '/' :: ((padStart2 (toString M)).data
          ++ '/' :: (padStart2 (toString Y)).data) := by
      simp [String.data_append, hslash]
    rw [h1]
    exact splitOnSlash_three (pad_no_slash D hD99) (pad_no_slash M (by omega))
      (pad_no_slash Y hY)
  have hparse : parseBrazilianDate (padStart2 (toString D) ++ "/"
      ++ padStart2 (toString M) ++ "/" ++ padStart2 (toString Y))
      = jsMakeDate (some (2000 + (Y : Int))) (some ((M : Int) - 1))
          (some (D : Int)) := by
    unfold parseBrazilianDate
    rw [hsplit]
    simp only [List.map_cons, List.map_nil, jsNumber_pad D hD99,
      jsNumber_pad M (by omega), jsNumber_pad Y hY]
    rfl
  have hif : (if 0 ≤ 2000 + (Y : Int) ∧ 2000 + (Y : Int) ≤ 99
      then 1900 + (2000 + (Y : Int)) else 2000 + (Y : Int))
      = 2000 + (Y : Int) := by
    rw [if_neg]
    omega
  have hfdiv : ((M : Int) - 1).fdiv 12 = 0 := by
    interval_cases M <;> decide
  have hemod : (((M : Int) - 1).emod 12).toNat = M - 1 := by
    interval_cases M <;> decide
  have hnorm : normDate (((D : Int)).natAbs + 2) (2000 + (Y : Int)) (M - 1)
      (D : Int) = (2000 + (Y : Int), M - 1) := by
    rw [show ((D : Int)).natAbs + 2 = (((D : Int)).natAbs + 1) + 1 from rfl]
    unfold normDate
    rw [if_neg (by omega), if_neg (by omega)]
  have hmake : jsMakeDate (some (2000 + (Y : Int))) (some ((M : Int) - 1))
      (some (D : Int)) = some (2000 + (Y : Int), M - 1) := by
    show some (normDate (((D : Int)).natAbs + 2)
      ((if 0 ≤ 2000 + (Y : Int) ∧ 2000 + (Y : Int) ≤ 99
        then 1900 + (2000 + (Y : Int)) else 2000 + (Y : Int))
        + ((M : Int) - 1).fdiv 12)
      ((((M : Int) - 1).emod 12).toNat) (D : Int))
      = some (2000 + (Y : Int), M - 1)
    rw [hif, hfdiv, hemod, add_zero, hnorm]
  unfold surgeryMonthKey
  rw [hdate, hparse, hmake]
  show toString (2000 + (Y : Int)) ++ "-" ++ padStart2 (toString (M - 1 + 1))
    = toString (2000 + (Y : Int)) ++ "-" ++ padStart2 (toString M)
  rw [Nat.sub_add_cancel hM1]

/-- Witness for `monthKey_of_valid_date`: the spec scenario date
`"15/03/24"` is keyed `"2024-03"`. -/
theorem monthKey_of_valid_date_witness :
    (recGeral.dataRealizacao
      = padStart2 (toString 15) ++ "/" ++ padStart2 (toString 3) ++ "/"
        ++ padStart2 (toString 24)
      ∧ (15 : Int) ≤ daysInMonth (2000 + (24 : Int)) (3 - 1))
    ∧ surgeryMonthKey recGeral = "2024-03" :=
  ⟨⟨by decide, by decide⟩,
    (monthKey_of_valid_date recGeral 15 3 24 (by decide) (by decide)
      (by decide) (by decide) (by decide) (by decide)).trans (by decide)⟩

/-- Claim C10: in `docNested`, one date-realization group is nested inside
another.  The surgeries under the inner group are emitted twice: once
during the outer group's descendant scan (with the outer date
`"01/01/24"`) and once when traversal recurses into the inner group (with
the inner date `"02/01/24"`) — two records for the same source surgery
group, identical except for the date. -/
theorem nested_date_groups_duplicate :
    parseXMLMonthly docNested
      = .ok [recNested "01/01/24", recNested "02/01/24"] := by
  rfl

end DoctorSolutions
